import Mathlib

/-!
Verification of the FlatSQLi boolean-blind SQL injection engine against its
specification.  The Go sources are shallowly embedded: strings are modelled as
lists of byte values (`List Nat`, all inputs of interest are ASCII), Go `int`
fields as `Int` or `Nat`, nilable pointers as `Option`, and the HTTP boolean
oracle as a pure function from probes to booleans.  Each embedded definition
mirrors one Go function and carries its name.
-/

namespace FlatSQLi

/-! ## Fingerprint (internal/fingerprint/fingerprint.go)

`Fingerprint` summarises one HTTP response.  Go pointer receivers may be nil,
so the comparison operations take `Option Fingerprint` arguments; the nil
checks at the top of `Equals`, `IsSimilar` and `Diff` become the `none`
branches. -/

structure Fingerprint where
  statusCode : Int
  contentLength : Int
  wordCount : Int
  lineCount : Int
  bodyHash : String
  containsMatchString : Bool
deriving DecidableEq, Repr

namespace Fingerprint

/-- The tertiary check of `Equals`: Go computes
`tolerance := float64(f.ContentLength) * 0.05` and tests
`|f.ContentLength - other.ContentLength| <= tolerance`.  The comparison is
modelled in exact arithmetic: `diff <= 0.05 * cl  ↔  20 * diff <= cl`
(both sides are integers scaled by 20, so no rounding questions arise away
from razor-thin float margins). -/
def lengthWithinTolerance (f other : Fingerprint) : Bool :=
  decide ((((f.contentLength - other.contentLength).natAbs : Int)) * 20 ≤ f.contentLength)

/-- `Fingerprint.Equals` (fingerprint.go lines 46-74). -/
def equals : Option Fingerprint → Option Fingerprint → Bool
  | some f, some other =>
    if f.containsMatchString ≠ other.containsMatchString then false
    else if f.statusCode ≠ other.statusCode then false
    else if f.wordCount = other.wordCount then true
    else lengthWithinTolerance f other
  | _, _ => false

/-- `Fingerprint.IsSimilar` (fingerprint.go lines 77-84). -/
def isSimilar : Option Fingerprint → Option Fingerprint → Bool
  | some f, some other => f.statusCode = other.statusCode
  | _, _ => false

/-- `Fingerprint.Diff` (fingerprint.go lines 87-112). -/
def diff : Option Fingerprint → Option Fingerprint → String
  | some f, some other =>
    let d1 := if f.statusCode ≠ other.statusCode then ["status code"] else []
    let d2 := if f.wordCount ≠ other.wordCount then ["word count"] else []
    let d3 := if f.contentLength ≠ other.contentLength then ["content length"] else []
    let d4 := if f.bodyHash ≠ other.bodyHash then ["body content"] else []
    let ds := d1 ++ d2 ++ d3 ++ d4
    if ds.isEmpty then "identical" else String.intercalate ", " ds
  | _, _ => "nil fingerprint"

end Fingerprint

/-! ## CalibrationResult (internal/calibrator, concatenated in extractor.go) -/

structure CalibrationResult where
  trueFingerprint : Option Fingerprint
  falseFingerprint : Option Fingerprint
  errorFingerprint : Option Fingerprint
  canDifferentiate : Bool
  errorMatchesTrue : Bool

namespace CalibrationResult

/-- `CalibrationResult.IsTrue`. -/
def isTrue (r : CalibrationResult) (fp : Option Fingerprint) : Bool :=
  Fingerprint.equals r.trueFingerprint fp

/-- `CalibrationResult.IsFalse`. -/
def isFalse (r : CalibrationResult) (fp : Option Fingerprint) : Bool :=
  Fingerprint.equals r.falseFingerprint fp

/-- `CalibrationResult.IsError`. -/
def isError (r : CalibrationResult) (fp : Option Fingerprint) : Bool :=
  Fingerprint.equals r.errorFingerprint fp

end CalibrationResult

/-! ## The boolean oracle and binary search

Every probe the extractor or finder sends is a pure boolean SQL condition
built from a template; under calibration the server answers it TRUE or FALSE.
The HTTP/payload layer is abstracted into `oracle : Probe → Bool`; a probe
records which condition the payload generator was asked to build
(`GetLengthPayload`, `GetCharPayload`, `GetEqualityPayload`).  Extraction
functions return their value together with the list of probes sent, so that
statements about which probes are issued (and in which order) can be made. -/

inductive Probe where
  | lengthGt (n : Nat)
  | charGt (pos n : Nat)
  | charEq (pos c : Nat)
deriving DecidableEq, Repr

/-- Is a probe one of the character probes (`GetCharPayload` or
`GetEqualityPayload`)? -/
def Probe.isCharProbe : Probe → Bool
  | .lengthGt _ => false
  | .charGt _ _ => true
  | .charEq _ _ => true

/-- Is a probe an equality probe (`GetEqualityPayload`)? -/
def Probe.isEqProbe : Probe → Bool
  | .charEq _ _ => true
  | _ => false

/-- The binary-search loop shared by `findLength`, `findChar`, `GetRowCount`
and `GetColumnCount`:

    for low < high { mid := (low+high+1)/2; if oracle(mid-1) { low = mid } else { high = mid-1 } }

`mk` builds the probe for a given threshold.  The loop always terminates in at
most `high - low` iterations; `fuel` is a structural bound on that count so
the definition stays structurally recursive (callers pass the initial
`high - low`, which is always sufficient). -/
def bsearchGo {α : Type} (oracle : α → Bool) (mk : Nat → α) :
    Nat → Nat → Nat → Nat × List α
  | 0, low, _ => (low, [])
  | fuel + 1, low, high =>
    if low < high then
      let mid := (low + high + 1) / 2
      let p := mk (mid - 1)
      if oracle p then
        let r := bsearchGo oracle mk fuel mid high
        (r.1, p :: r.2)
      else
        let r := bsearchGo oracle mk fuel low (mid - 1)
        (r.1, p :: r.2)
    else (low, [])

/-- A faithful oracle for a server-side value `s` (a byte string): it answers
each probe with the truth of the corresponding SQL condition about `s`
(`LENGTH((Q))>n`, `ASCII(SUBSTRING((Q),pos,1))>n`, `ASCII(...)=c`;
positions are 1-based). -/
def faithfulOracle (s : List Nat) : Probe → Bool
  | .lengthGt n => decide (s.length > n)
  | .charGt pos n => decide (s.getD (pos - 1) 0 > n)
  | .charEq pos c => decide (s.getD (pos - 1) 0 = c)

/-! ## Extractor (internal/extractor/extractor.go) -/

namespace Extractor

/-- `findLength` (extractor.go lines 136-169): probe `LENGTH((Q))>0`, then
binary-search the exact length on `[0, 1024]`. -/
def findLength (oracle : Probe → Bool) : Nat × List Probe :=
  if oracle (Probe.lengthGt 0) then
    let r := bsearchGo oracle Probe.lengthGt 1024 0 1024
    (r.1, Probe.lengthGt 0 :: r.2)
  else (0, [Probe.lengthGt 0])

/-- `findChar` (extractor.go lines 172-193): binary search on the printable
ASCII range `[32, 126]` with probes `ASCII(char@pos) > mid-1`. -/
def findChar (oracle : Probe → Bool) (pos : Nat) : Nat × List Probe :=
  bsearchGo oracle (Probe.charGt pos) 94 32 126

/-- Accumulator loop of `getUniqueCharsAtPosition` (extractor.go lines
230-243): first-seen order, `pos` is 1-based, candidates shorter than `pos`
are skipped. -/
def collectUniqueChars (pos : Nat) : List (List Nat) → List Nat → List Nat
  | [], acc => acc
  | p :: rest, acc =>
    if pos ≤ p.length then
      let c := p.getD (pos - 1) 0
      if c ∈ acc then collectUniqueChars pos rest acc
      else collectUniqueChars pos rest (acc ++ [c])
    else collectUniqueChars pos rest acc

/-- `getUniqueCharsAtPosition` (extractor.go lines 230-243). -/
def getUniqueCharsAtPosition (candidates : List (List Nat)) (pos : Nat) : List Nat :=
  collectUniqueChars pos candidates []

/-- The equality-probe loop inside `findCharWithPrefixes` (and the analogous
loop in the finder's `extractString`): send `ASCII(char@pos) = c` for each
candidate character in turn, stopping at the first TRUE. -/
def tryEqualityChars (oracle : Probe → Bool) (pos : Nat) :
    List Nat → Option Nat × List Probe
  | [] => (none, [])
  | c :: rest =>
    if oracle (Probe.charEq pos c) then (some c, [Probe.charEq pos c])
    else
      let r := tryEqualityChars oracle pos rest
      (r.1, Probe.charEq pos c :: r.2)

/-- The candidate filter of `findCharWithPrefixes` (extractor.go lines
199-205): built-in version strings of length at least `pos` that extend the
already-extracted text. -/
def candidateFilter (prefixesList : List (List Nat)) (pos : Nat)
    (currentResult : List Nat) : List (List Nat) :=
  prefixesList.filter (fun p => decide (pos ≤ p.length) && currentResult.isPrefixOf p)

/-- `findCharWithPrefixes` (extractor.go lines 197-226): try equality probes
for the distinct `pos`-th characters of the matching built-in version
prefixes, then fall back to binary search.  (The Go `err` branch re-runs the
binary search on transport failure; the oracle here is total, so that branch
is unreachable.) -/
def findCharWithPrefixes (oracle : Probe → Bool) (prefixesList : List (List Nat))
    (pos : Nat) (currentResult : List Nat) : Nat × List Probe :=
  let candidates := candidateFilter prefixesList pos currentResult
  if candidates.isEmpty then findChar oracle pos
  else
    let uniqueChars := getUniqueCharsAtPosition candidates pos
    let r := tryEqualityChars oracle pos uniqueChars
    match r.1 with
    | some c => (c, r.2)
    | none =>
      let rb := findChar oracle pos
      (rb.1, r.2 ++ rb.2)

/-- The character loop of `extractString` (extractor.go lines 115-129):
`for i := 1; i <= length; i++`.  `rem` counts the remaining positions
(`length - i + 1` at entry). -/
def extractLoop (oracle : Probe → Bool) (prefixesList : List (List Nat)) :
    Nat → Nat → List Nat → List Nat × List Probe
  | 0, _, acc => (acc, [])
  | rem + 1, i, acc =>
    let r := findCharWithPrefixes oracle prefixesList i acc
    let rest := extractLoop oracle prefixesList rem (i + 1) (acc ++ [r.1])
    (rest.1, r.2 ++ rest.2)

/-- `extractString` (extractor.go lines 95-133): find the length, return
empty on zero, cap to `maxLen` when `maxLen` is positive, then extract the
characters left to right. -/
def extractString (oracle : Probe → Bool) (prefixesList : List (List Nat))
    (maxLen : Int) : List Nat × List Probe :=
  let rl := findLength oracle
  if rl.1 = 0 then ([], rl.2)
  else
    let len := if 0 < maxLen ∧ maxLen < (rl.1 : Int) then maxLen.toNat else rl.1
    let r := extractLoop oracle prefixesList len 1 []
    (r.1, rl.2 ++ r.2)

end Extractor

/-! ## Finder (internal/finder/finder.go, extract.go)

The finder has its own copy of the extraction loop: its `findLength` searches
`[0, 256]`, and its character prediction uses the host's persisted known
strings (filtered to the discovered length) instead of the built-in version
prefixes.  `LoadKnownStrings` is file I/O; its result is passed in as the
`knownStrings` argument. -/

namespace Finder

/-- `Finder.findLength` (extract.go lines 126-159): same loop as the
extractor's but with upper bound 256. -/
def findLength (oracle : Probe → Bool) : Nat × List Probe :=
  if oracle (Probe.lengthGt 0) then
    let r := bsearchGo oracle Probe.lengthGt 256 0 256
    (r.1, Probe.lengthGt 0 :: r.2)
  else (0, [Probe.lengthGt 0])

/-- `Finder.findChar` (extract.go lines 162-183). -/
def findChar (oracle : Probe → Bool) (pos : Nat) : Nat × List Probe :=
  bsearchGo oracle (Probe.charGt pos) 94 32 126

/-- The `nextChars` set of extract.go lines 63-66: the distinct characters of
the candidates at 1-based position `pos`.  (Go collects them in a map and
iterates it in unspecified order; the model fixes candidate-list order.
Every property proved below is independent of that order.) -/
def distinctCharsAt : List (List Nat) → Nat → List Nat → List Nat
  | [], _, acc => acc
  | p :: rest, pos, acc =>
    let c := p.getD (pos - 1) 0
    if c ∈ acc then distinctCharsAt rest pos acc
    else distinctCharsAt rest pos (acc ++ [c])

/-- The character loop of `Finder.extractString` (extract.go lines 54-117):
try equality probes over the cached candidates first, filter the candidates
on a hit, drop them for good on a miss ("we deviated from known strings"),
and fall back to binary search. -/
def extractLoop (oracle : Probe → Bool) :
    Nat → Nat → List (List Nat) → List Nat → List Nat × List Probe
  | 0, _, _, acc => (acc, [])
  | rem + 1, i, candidates, acc =>
    if candidates.isEmpty then
      let r := findChar oracle i
      let rest := extractLoop oracle rem (i + 1) candidates (acc ++ [r.1])
      (rest.1, r.2 ++ rest.2)
    else
      let uniq := distinctCharsAt candidates i []
      let pr := Extractor.tryEqualityChars oracle i uniq
      match pr.1 with
      | some c =>
        let newCands := candidates.filter (fun p => p.getD (i - 1) 0 == c)
        let rest := extractLoop oracle rem (i + 1) newCands (acc ++ [c])
        (rest.1, pr.2 ++ rest.2)
      | none =>
        let r := findChar oracle i
        let rest := extractLoop oracle rem (i + 1) [] (acc ++ [r.1])
        (rest.1, pr.2 ++ r.2 ++ rest.2)

/-- `Finder.extractString` (extract.go lines 24-123): find the length, cap it
to `maxLen` when positive, seed the prediction candidates with the persisted
known strings of exactly that length, then run the character loop. -/
def extractString (oracle : Probe → Bool) (knownStrings : List (List Nat))
    (maxLen : Int) : List Nat × List Probe :=
  let rl := findLength oracle
  if rl.1 = 0 then ([], rl.2)
  else
    let len := if 0 < maxLen ∧ maxLen < (rl.1 : Int) then maxLen.toNat else rl.1
    let candidates := knownStrings.filter (fun p => p.length == len)
    let r := extractLoop oracle len 1 candidates []
    (r.1, rl.2 ++ r.2)

/-- The descending threshold loop of `GetRowCount` (finder.go lines 446-464):
probe `COUNT > threshold-1` from the largest threshold down; the first TRUE
yields `-1` for the one-million threshold and the raw threshold otherwise. -/
def thresholdLadder (oracle : Nat → Bool) : List Nat → Option Int
  | [] => none
  | t :: rest =>
    if oracle (t - 1) then some (if t = 1000000 then (-1 : Int) else (t : Int))
    else thresholdLadder oracle rest

/-- `Finder.GetRowCount` (finder.go lines 432-485).  The oracle argument maps
a threshold `n` to the calibrated answer to the probe `(COUNT(*)) > n`. -/
def getRowCount (oracle : Nat → Bool) : Int :=
  if oracle 0 = false then 0
  else
    match thresholdLadder oracle [1000000, 100000, 10000, 1000, 100, 10] with
    | some v => v
    | none => ((bsearchGo oracle (fun n => n) 8 1 9).1 : Int)

end Finder

/-! ## Built-in version prefixes (internal/payloads, `knownVersionPrefixes`) -/

/-- Byte values of an ASCII string. -/
def strBytes (s : String) : List Nat :=
  s.data.map Char.toNat

/-- The MySQL entry of `knownVersionPrefixes` (payloads package). -/
def mysqlVersionPrefixes : List (List Nat) :=
  ["5.5.", "5.6.", "5.7.", "8.0.", "8.1.", "8.2.", "8.3.", "8.4.",
   "10.", "11."].map strBytes

/-- Modelled from the spec (claim C4's description, not from the source; used
only as the refinement target to compare against the code): "Let `P` be the
union of (i) the engine's built-in known version prefixes and (ii) persisted
known strings for this host of length exactly `L`.  Filter to those whose
first `p-1` characters match the already-extracted prefix." -/
def specCandidateSet (builtins knownStrings : List (List Nat)) (L p : Nat)
    (extracted : List Nat) : List (List Nat) :=
  (builtins ++ knownStrings.filter (fun s => s.length = L)).filter
    (fun s => s.take (p - 1) = extracted)

/-! ## Host cache storage (storage section concatenated in parser.go)

Hosts are byte strings (`List Nat`); Go's `strings.LastIndex`,
`strings.Contains` and `strings.ToLower` act on bytes (the inputs of interest
are ASCII, where Unicode lowercasing agrees with the byte-wise map). -/

namespace Storage

/-- Byte-wise ASCII lowercasing (the ASCII fragment of `strings.ToLower`). -/
def toLowerByte (b : Nat) : Nat :=
  if 65 ≤ b ∧ b ≤ 90 then b + 32 else b

/-- `strings.LastIndex(s, ":")` over bytes (58 is the colon). -/
def lastIndexOfByte (b : Nat) : List Nat → Option Nat
  | [] => none
  | x :: xs =>
    match lastIndexOfByte b xs with
    | some i => some (i + 1)
    | none => if x = b then some 0 else none

/-- `normalizeHost` (parser.go storage section lines 458-465): strip a
trailing `:port` unless a `]` occurs at or after the last colon (IPv6
bracket form), then lowercase. -/
def normalizeHost (host : List Nat) : List Nat :=
  let stripped :=
    match lastIndexOfByte 58 host with
    | some idx => if (host.drop idx).contains 93 then host else host.take idx
    | none => host
  stripped.map toLowerByte

/-- The effect of `SaveKnownString` (parser.go storage section lines 587-608)
on the host entry's `KnownStrings` list: the empty string is ignored, an
already-present string is ignored, otherwise the string is appended.  (The
surrounding load / find-or-create-host / rewrite-file plumbing is I/O and is
not part of the list transformation.) -/
def saveKnownString (knownStrings : List String) (str : String) : List String :=
  if str = "" then knownStrings
  else if str ∈ knownStrings then knownStrings
  else knownStrings ++ [str]

end Storage

/-! ## Request template markers (internal/parser/parser.go)

Raw requests are byte strings.  Only the marker-related part of
`ParseRequest` is embedded (line-ending normalisation, lines 41 and 50-58);
header/host parsing does not influence marker substitution. -/

namespace Parser

/-- `strings.Index(s, pat)` over bytes: index of the first occurrence of
`pat`, or `none`. -/
def indexOfSub (pat : List Nat) : List Nat → Option Nat
  | [] => if pat.isEmpty then some 0 else none
  | x :: xs =>
    if pat.isPrefixOf (x :: xs) then some 0
    else (indexOfSub pat xs).map (· + 1)

/-- Replace every non-overlapping occurrence of `pat` left to right, the
shared semantics of `strings.ReplaceAll` and of
`regexp.ReplaceAllStringFunc` with a literal (quoted) pattern.  `fuel`
is a structural bound (callers pass the string length; each step consumes at
least one byte).  An empty pattern is never used by the parser. -/
def replaceAllFuel (pat repl : List Nat) : Nat → List Nat → List Nat
  | 0, s => s
  | _ + 1, [] => []
  | fuel + 1, x :: xs =>
    if pat ≠ [] ∧ pat.isPrefixOf (x :: xs) then
      repl ++ replaceAllFuel pat repl fuel ((x :: xs).drop pat.length)
    else x :: replaceAllFuel pat repl fuel xs

def replaceAll (pat repl s : List Nat) : List Nat :=
  replaceAllFuel pat repl s.length s

/-- Count the non-overlapping occurrences of `pat`. -/
def countOccsFuel (pat : List Nat) : Nat → List Nat → Nat
  | 0, _ => 0
  | _ + 1, [] => 0
  | fuel + 1, x :: xs =>
    if pat ≠ [] ∧ pat.isPrefixOf (x :: xs) then
      1 + countOccsFuel pat fuel ((x :: xs).drop pat.length)
    else countOccsFuel pat fuel xs

def countOccs (pat s : List Nat) : Nat :=
  countOccsFuel pat s.length s

/-- Byte values of an ASCII string literal. -/
def bytes (s : String) : List Nat :=
  s.data.map Char.toNat

/-- The supported injection markers (parser.go line 13). -/
def markersList : List (List Nat) :=
  [bytes "<PAYLOAD>", bytes "<FUZZ>", bytes "<INJECT>"]

/-- The marker-finding loop of `ParseRequest` (parser.go lines 50-58): the
first marker in list order that occurs in the raw text, with its byte
position; `(-1, "")` when none occurs. -/
def findMarker : List (List Nat) → List Nat → Int × List Nat
  | [], _ => (-1, [])
  | m :: rest, raw =>
    match indexOfSub m raw with
    | some i => ((i : Int), m)
    | none => findMarker rest raw

/-- The marker-relevant fields of a `ParsedRequest`. -/
structure ParsedRequestM where
  rawRequest : List Nat
  markerPosition : Int
  markerType : List Nat
deriving DecidableEq, Repr

/-- The marker-relevant part of `ParseRequest` (parser.go lines 39-58):
normalise CRLF to LF, then locate the first marker. -/
def parseMarker (raw : List Nat) : ParsedRequestM :=
  let raw := replaceAll (bytes "\r\n") (bytes "\n") raw
  let fm := findMarker markersList raw
  ⟨raw, fm.1, fm.2⟩

/-- `url.QueryEscape` over bytes (net/url semantics: unreserved ASCII kept,
space becomes `+`, everything else percent-encoded with uppercase hex). -/
def isUnreservedByte (b : Nat) : Bool :=
  (65 ≤ b && b ≤ 90) || (97 ≤ b && b ≤ 122) || (48 ≤ b && b ≤ 57) ||
    b == 45 || b == 95 || b == 46 || b == 126

def hexDigit (n : Nat) : Nat :=
  if n < 10 then 48 + n else 55 + n

def queryEscape : List Nat → List Nat
  | [] => []
  | b :: rest =>
    (if isUnreservedByte b then [b]
     else if b = 32 then [43]
     else [37, hexDigit (b / 16), hexDigit (b % 16)]) ++ queryEscape rest

/-- `ParsedRequest.isMarkerInURL` (parser.go lines 155-161). -/
def isMarkerInURL (p : ParsedRequestM) : Bool :=
  let firstLineEnd : Int :=
    match indexOfSub (bytes "\n") p.rawRequest with
    | some i => (i : Int)
    | none => (p.rawRequest.length : Int)
  decide (p.markerPosition < firstLineEnd) && decide (0 ≤ p.markerPosition)

/-- `ParsedRequest.ReplaceMarker` (parser.go lines 133-152): no-op without a
marker; URL-encodes the payload when the marker sits in the request line;
then substitutes via `regexp.ReplaceAllStringFunc` on the quoted marker —
which replaces every occurrence. -/
def replaceMarker (p : ParsedRequestM) (payload : List Nat) : List Nat :=
  if p.markerType = [] then p.rawRequest
  else
    let encoded := if isMarkerInURL p then queryEscape payload else payload
    replaceAll p.markerType encoded p.rawRequest

end Parser

/-! ## Cache file loading (storage section concatenated in parser.go)

`loadUnifiedCache` reads JSON; the file bytes are modelled as a JSON value
and Go's `encoding/json.Unmarshal` into the `Cache` / legacy struct shapes is
modelled by decoders with its documented semantics: unknown object keys are
ignored, `null` leaves the zero value, a type mismatch is an error.  Go maps
are modelled as association lists in document order (Go map iteration order
is unspecified; the concrete inputs below have at most one entry per map, so
nothing depends on it). -/

inductive Json where
  | null
  | bool (b : Bool)
  | num (n : Int)
  | str (s : String)
  | arr (items : List Json)
  | obj (fields : List (String × Json))

namespace Storage

def lookupField (fields : List (String × Json)) (key : String) : Option Json :=
  (fields.find? (fun kv => kv.1 == key)).map (·.2)

def decodeString : Json → Option String
  | .str s => some s
  | .null => some ""
  | _ => none

def decodeStringList : Json → Option (List String)
  | .null => some []
  | .arr xs => xs.mapM decodeString
  | _ => none

def decodeRow : Json → Option (List (String × String))
  | .null => some []
  | .obj fields => fields.mapM (fun kv => (decodeString kv.2).map (fun v => (kv.1, v)))
  | _ => none

def decodeRows : Json → Option (List (List (String × String)))
  | .null => some []
  | .arr xs => xs.mapM decodeRow
  | _ => none

/-- `TableCache` (storage section): columns and rows of one table. -/
structure TableCache where
  columns : List String
  rows : List (List (String × String))
deriving DecidableEq, Repr

/-- A struct field: absent keys decode to the zero value. -/
def decodeField {α : Type} (dec : Json → Option α) (dflt : α)
    (fields : List (String × Json)) (key : String) : Option α :=
  match lookupField fields key with
  | none => some dflt
  | some j => dec j

def decodeTableCache : Json → Option TableCache
  | .null => some ⟨[], []⟩
  | .obj fields => do
      let cols ← decodeField decodeStringList [] fields "columns"
      let rows ← decodeField decodeRows [] fields "rows"
      pure ⟨cols, rows⟩
  | _ => none

def decodeTables : Json → Option (List (String × TableCache))
  | .null => some []
  | .obj fields =>
      fields.mapM (fun kv => (decodeTableCache kv.2).map (fun t => (kv.1, t)))
  | _ => none

/-- `HostCache` (storage section): one per-host record of the new format. -/
structure HostCache where
  host : String
  database : String
  version : String
  tables : List (String × TableCache)
  knownStrings : List String
deriving DecidableEq, Repr

def decodeHostCache : Json → Option HostCache
  | .null => some ⟨"", "", "", [], []⟩
  | .obj fields => do
      let h ← decodeField decodeString "" fields "host"
      let db ← decodeField decodeString "" fields "database"
      let v ← decodeField decodeString "" fields "version"
      let t ← decodeField decodeTables [] fields "tables"
      let ks ← decodeField decodeStringList [] fields "known_strings"
      pure ⟨h, db, v, t, ks⟩
  | _ => none

/-- `Cache` (storage section): the whole file. -/
structure Cache where
  hosts : List HostCache
deriving DecidableEq, Repr

def decodeHostList : Json → Option (List HostCache)
  | .null => some []
  | .arr xs => xs.mapM decodeHostCache
  | _ => none

def decodeCache : Json → Option Cache
  | .null => some ⟨[]⟩
  | .obj fields => do
      let hs ← decodeField decodeHostList [] fields "hosts"
      pure ⟨hs⟩
  | _ => none

/-- The anonymous legacy struct of `loadUnifiedCache` (parser.go storage
section lines 365-375): a `finder` map from pattern to `{tables: map[string]interface{}}`. -/
structure LegacyFinderEntry where
  tables : List (String × Json)

def decodeJsonMap : Json → Option (List (String × Json))
  | .null => some []
  | .obj fields => some fields
  | _ => none

def decodeLegacyFinderEntry : Json → Option LegacyFinderEntry
  | .null => some ⟨[]⟩
  | .obj fields => do
      let t ← decodeField decodeJsonMap [] fields "tables"
      pure ⟨t⟩
  | _ => none

def decodeLegacyFinder : Json → Option (List (String × LegacyFinderEntry))
  | .null => some []
  | .obj fields =>
      fields.mapM (fun kv => (decodeLegacyFinderEntry kv.2).map (fun e => (kv.1, e)))
  | _ => none

structure LegacyHost where
  host : String
  database : String
  version : String
  finder : List (String × LegacyFinderEntry)
  knownStrings : List String

structure LegacyCache where
  hosts : List LegacyHost

def decodeLegacyHost : Json → Option LegacyHost
  | .null => some ⟨"", "", "", [], []⟩
  | .obj fields => do
      let h ← decodeField decodeString "" fields "host"
      let db ← decodeField decodeString "" fields "database"
      let v ← decodeField decodeString "" fields "version"
      let f ← decodeField decodeLegacyFinder [] fields "finder"
      let ks ← decodeField decodeStringList [] fields "known_strings"
      pure ⟨h, db, v, f, ks⟩
  | _ => none

def decodeLegacyHostList : Json → Option (List LegacyHost)
  | .null => some []
  | .arr xs => xs.mapM decodeLegacyHost
  | _ => none

def decodeLegacyCache : Json → Option LegacyCache
  | .null => some ⟨[]⟩
  | .obj fields => do
      let hs ← decodeField decodeLegacyHostList [] fields "hosts"
      pure ⟨hs⟩
  | _ => none

/-- The column-merging inner loops of the migration (parser.go storage
section lines 400-435): add each string column that is not already
present. -/
def mergeColumns (existing : List String) (cols : List Json) : List String :=
  cols.foldl
    (fun acc j =>
      match j with
      | .str s => if s ∈ acc then acc else acc ++ [s]
      | _ => acc)
    existing

/-- The `switch v := tableData.(type)` of the migration: an array is the old
columns-as-array shape; an object contributes its `columns` array; anything
else is skipped. -/
def migrateTableData (existing : TableCache) (td : Json) : TableCache :=
  match td with
  | .arr cols => { existing with columns := mergeColumns existing.columns cols }
  | .obj fields =>
    match lookupField fields "columns" with
    | some (.arr cols) => { existing with columns := mergeColumns existing.columns cols }
    | _ => existing
  | _ => existing

def lookupTable (tabs : List (String × TableCache)) (k : String) : Option TableCache :=
  (tabs.find? (fun kv => kv.1 == k)).map (·.2)

def setTable (tabs : List (String × TableCache)) (k : String) (v : TableCache) :
    List (String × TableCache) :=
  if tabs.any (fun kv => kv.1 == k) then
    tabs.map (fun kv => if kv.1 == k then (k, v) else kv)
  else tabs ++ [(k, v)]

/-- Migration of one legacy host (parser.go storage section lines 383-439):
merge the tables of every finder pattern into a single flat table map. -/
def migrateHost (lh : LegacyHost) : HostCache :=
  let tables := lh.finder.foldl
    (fun tabs entry =>
      entry.2.tables.foldl
        (fun tabs2 td =>
          let existing := (lookupTable tabs2 td.1).getD ⟨[], []⟩
          setTable tabs2 td.1 (migrateTableData existing td.2))
        tabs)
    []
  ⟨lh.host, lh.database, lh.version, tables, lh.knownStrings⟩

def migrate (lc : LegacyCache) : Cache :=
  ⟨lc.hosts.map migrateHost⟩

/-- `loadUnifiedCache` (parser.go storage section lines 347-443), file I/O
abstracted to the parsed JSON document: try the new format first; only if
that errors, try the legacy format and migrate; on a second error return the
empty cache. -/
def loadUnifiedCache (data : Json) : Cache :=
  match decodeCache data with
  | some c => c
  | none =>
    match decodeLegacyCache data with
    | some lc => migrate lc
    | none => ⟨[]⟩

/-- A cache file in the legacy shape: one host whose tables live under
`finder["pass"].tables` with a columns array. -/
def legacyExample : Json :=
  .obj [("hosts", .arr [.obj [
    ("host", .str "example.com"),
    ("finder", .obj [("pass", .obj [("tables",
      .obj [("users", .arr [.str "id", .str "password"])])])])]])]

end Storage

/-! ### Binary search correctness -/

/-- If the oracle faithfully answers `v > k` for each probed threshold `k`,
the binary-search loop converges to `v` whenever `v` lies in `[low, high]`
and the fuel covers the interval. -/
theorem bsearchGo_correct {α : Type} (oracle : α → Bool) (mk : Nat → α) (v : Nat)
    (hor : ∀ k, oracle (mk k) = decide (v > k)) :
    ∀ fuel low high, high - low ≤ fuel → low ≤ v → v ≤ high →
      (bsearchGo oracle mk fuel low high).1 = v := by
  intro fuel
  induction fuel with
  | zero =>
    intro low high hf hl hh
    simp only [bsearchGo]
    omega
  | succ n ih =>
    intro low high hf hl hh
    simp only [bsearchGo]
    by_cases hlh : low < high
    · rw [if_pos hlh]
      have hm1 : low + 1 ≤ (low + high + 1) / 2 := by omega
      have hm2 : (low + high + 1) / 2 ≤ high := by omega
      rcases horc : oracle (mk ((low + high + 1) / 2 - 1)) with hfalse | htrue
      · have hv : ¬ v > (low + high + 1) / 2 - 1 := by
          have h := hor ((low + high + 1) / 2 - 1)
          rw [horc] at h
          simpa using h.symm
        simp only [horc, Bool.false_eq_true, if_false]
        exact ih low ((low + high + 1) / 2 - 1) (by omega) hl (by omega)
      · have hv : v > (low + high + 1) / 2 - 1 := by
          have h := hor ((low + high + 1) / 2 - 1)
          rw [horc] at h
          simpa using h.symm
        simp only [horc, if_true]
        exact ih ((low + high + 1) / 2) high (by omega) (by omega) hh
    · rw [if_neg hlh]
      omega

/-- Every probe in the binary-search trace was built by `mk`. -/
theorem bsearchGo_trace {α : Type} (oracle : α → Bool) (mk : Nat → α) :
    ∀ fuel low high, ∀ q ∈ (bsearchGo oracle mk fuel low high).2, ∃ n, q = mk n := by
  intro fuel
  induction fuel with
  | zero => intro low high q hq; simp [bsearchGo] at hq
  | succ n ih =>
    intro low high q hq
    simp only [bsearchGo] at hq
    by_cases hlh : low < high
    · rw [if_pos hlh] at hq
      rcases horc : oracle (mk ((low + high + 1) / 2 - 1)) with hfalse | htrue <;>
        simp only [horc, Bool.false_eq_true, if_false, if_true, List.mem_cons] at hq <;>
        rcases hq with hq | hq
      · exact ⟨_, hq⟩
      · exact ih low ((low + high + 1) / 2 - 1) q hq
      · exact ⟨_, hq⟩
      · exact ih ((low + high + 1) / 2) high q hq
    · rw [if_neg hlh] at hq
      simp at hq

/-! ### Extractor correctness (claim C1) -/

/-- `findLength` recovers the exact length of the server value when it is at
most the search upper bound 1024. -/
theorem findLength_correct (s : List Nat) (hlen : s.length ≤ 1024) :
    (Extractor.findLength (faithfulOracle s)).1 = s.length := by
  simp only [Extractor.findLength]
  by_cases h0 : s.length = 0
  · rw [if_neg (by simp [faithfulOracle, h0])]
    exact h0.symm
  · rw [if_pos (by simp [faithfulOracle]; omega)]
    exact bsearchGo_correct (faithfulOracle s) Probe.lengthGt s.length
      (fun k => rfl) 1024 0 1024 (by omega) (by omega) hlen

/-- Every probe `findLength` sends is a length probe. -/
theorem findLength_trace (oracle : Probe → Bool) :
    ∀ q ∈ (Extractor.findLength oracle).2, ∃ n, q = Probe.lengthGt n := by
  intro q hq
  simp only [Extractor.findLength] at hq
  by_cases h0 : oracle (Probe.lengthGt 0)
  · rw [if_pos h0] at hq
    simp only [List.mem_cons] at hq
    rcases hq with hq | hq
    · exact ⟨0, hq⟩
    · exact bsearchGo_trace oracle Probe.lengthGt 1024 0 1024 q hq
  · rw [if_neg h0] at hq
    simp at hq
    exact ⟨0, hq⟩

/-- `findChar` recovers the character at a position when its code lies in the
printable range `[32, 126]`. -/
theorem findChar_correct (s : List Nat) (pos : Nat)
    (h1 : 32 ≤ s.getD (pos - 1) 0) (h2 : s.getD (pos - 1) 0 ≤ 126) :
    (Extractor.findChar (faithfulOracle s) pos).1 = s.getD (pos - 1) 0 :=
  bsearchGo_correct (faithfulOracle s) (Probe.charGt pos) (s.getD (pos - 1) 0)
    (fun k => rfl) 94 32 126 (by omega) h1 h2

/-- A successful equality probe pins down the character: if the loop answers
`some c` then the oracle confirmed `ASCII(char@pos) = c`. -/
theorem tryEqualityChars_some (oracle : Probe → Bool) (pos : Nat) :
    ∀ chars c, (Extractor.tryEqualityChars oracle pos chars).1 = some c →
      oracle (Probe.charEq pos c) = true := by
  intro chars
  induction chars with
  | nil => intro c hc; simp [Extractor.tryEqualityChars] at hc
  | cons c0 rest ih =>
    intro c hc
    simp only [Extractor.tryEqualityChars] at hc
    by_cases h0 : oracle (Probe.charEq pos c0)
    · rw [if_pos h0] at hc
      simp only [Option.some.injEq] at hc
      rw [← hc]
      exact h0
    · rw [if_neg h0] at hc
      exact ih c hc

/-- The equality-probe loop sends probes for an initial segment of the
candidate characters, in order. -/
theorem tryEqualityChars_trace (oracle : Probe → Bool) (pos : Nat) :
    ∀ chars, ∃ j, j ≤ chars.length ∧
      (Extractor.tryEqualityChars oracle pos chars).2
        = (chars.take j).map (Probe.charEq pos) := by
  intro chars
  induction chars with
  | nil => exact ⟨0, by simp [Extractor.tryEqualityChars]⟩
  | cons c0 rest ih =>
    simp only [Extractor.tryEqualityChars]
    by_cases h0 : oracle (Probe.charEq pos c0)
    · exact ⟨1, by simp [h0]⟩
    · obtain ⟨j, hj, htr⟩ := ih
      refine ⟨j + 1, by simpa using hj, ?_⟩
      simp [h0, htr]

/-- Under a faithful oracle, `findCharWithPrefixes` returns the correct
character regardless of the candidate prefixes: either one of the equality
probes confirms it, or the binary-search fallback finds it. -/
theorem findCharWithPrefixes_correct (s : List Nat) (prefixesList : List (List Nat))
    (pos : Nat) (currentResult : List Nat)
    (h1 : 32 ≤ s.getD (pos - 1) 0) (h2 : s.getD (pos - 1) 0 ≤ 126) :
    (Extractor.findCharWithPrefixes (faithfulOracle s) prefixesList pos currentResult).1
      = s.getD (pos - 1) 0 := by
  simp only [Extractor.findCharWithPrefixes]
  by_cases hempty :
      (Extractor.candidateFilter prefixesList pos currentResult).isEmpty
  · rw [if_pos hempty]
    exact findChar_correct s pos h1 h2
  · rw [if_neg hempty]
    rcases hres : (Extractor.tryEqualityChars (faithfulOracle s) pos
        (Extractor.getUniqueCharsAtPosition
          (Extractor.candidateFilter prefixesList pos currentResult) pos)).1 with _ | c
    · simp only [hres]
      exact findChar_correct s pos h1 h2
    · simp only [hres]
      have h := tryEqualityChars_some (faithfulOracle s) pos _ c hres
      simp only [faithfulOracle, decide_eq_true_eq] at h
      exact h.symm

/-- The character loop extracts the characters of `s` one by one: from an
accumulator holding the first `i - 1` characters it produces the first
`i - 1 + rem`. -/
theorem extractLoop_correct (s : List Nat) (prefixesList : List (List Nat))
    (hprint : ∀ c ∈ s, 32 ≤ c ∧ c ≤ 126) :
    ∀ rem i, 1 ≤ i → (i - 1) + rem ≤ s.length →
      (Extractor.extractLoop (faithfulOracle s) prefixesList rem i
        (s.take (i - 1))).1 = s.take ((i - 1) + rem) := by
  intro rem
  induction rem with
  | zero => intro i hi hle; simp [Extractor.extractLoop]
  | succ n ih =>
    intro i hi hle
    simp only [Extractor.extractLoop]
    have hidx : i - 1 < s.length := by omega
    have hget : s.getD (i - 1) 0 = s.get ⟨i - 1, hidx⟩ := by
      simp [List.getD_eq_getElem?_getD, List.getElem?_eq_getElem hidx]
    have hmem : s.get ⟨i - 1, hidx⟩ ∈ s := List.get_mem s (i - 1) hidx
    obtain ⟨hc1, hc2⟩ := hprint _ hmem
    have hchar :
        (Extractor.findCharWithPrefixes (faithfulOracle s) prefixesList i
          (s.take (i - 1))).1 = s.getD (i - 1) 0 :=
      findCharWithPrefixes_correct s prefixesList i (s.take (i - 1))
        (by rw [hget]; exact hc1) (by rw [hget]; exact hc2)
    have htake : s.take (i - 1) ++ [s.getD (i - 1) 0] = s.take i := by
      rw [hget]
      have hcg := List.take_concat_get s (i - 1) hidx
      simp only [List.concat_eq_append] at hcg
      rw [show s.get ⟨i - 1, hidx⟩ = s[i - 1] from rfl, hcg]
      congr 1
      omega
    rw [hchar, htake]
    have := ih (i + 1) (by omega) (by omega)
    simp only [show i + 1 - 1 = i from rfl] at this
    rw [this]
    congr 1
    omega

/-- Claim C1: under a faithful oracle, for a printable-ASCII server value of
length at most the search upper bound (1024), `extractString` returns exactly
the prefix of the value of length `min(length, max_len)` (the full value when
`max_len` is not positive); and a zero-length value yields the empty string
with no character probe issued. -/
theorem c1_extractString_faithful (s : List Nat) (prefixesList : List (List Nat))
    (maxLen : Int)
    (hprint : ∀ c ∈ s, 32 ≤ c ∧ c ≤ 126) (hlen : s.length ≤ 1024) :
    (Extractor.extractString (faithfulOracle s) prefixesList maxLen).1
      = s.take (if maxLen ≤ 0 then s.length else min s.length maxLen.toNat)
    ∧ (s.length = 0 →
        (Extractor.extractString (faithfulOracle s) prefixesList maxLen).1 = []
        ∧ ∀ q ∈ (Extractor.extractString (faithfulOracle s) prefixesList maxLen).2,
            q.isCharProbe = false) := by
  have hfl := findLength_correct s hlen
  by_cases h0 : s.length = 0
  · have hempty : s = [] := List.length_eq_zero.mp h0
    subst hempty
    refine ⟨by simp [Extractor.extractString, Extractor.findLength, faithfulOracle], fun _ => ⟨?_, ?_⟩⟩
    · simp [Extractor.extractString, Extractor.findLength, faithfulOracle]
    · intro q hq
      simp only [Extractor.extractString] at hq
      rw [if_pos (by rw [hfl]; rfl)] at hq
      obtain ⟨n, hn⟩ := findLength_trace (faithfulOracle []) q hq
      rw [hn]
      rfl
  · constructor
    · simp only [Extractor.extractString]
      rw [if_neg (by rw [hfl]; exact h0)]
      rw [hfl]
      set len := if 0 < maxLen ∧ maxLen < (s.length : Int) then maxLen.toNat else s.length
        with hlendef
      have hcap : len ≤ s.length := by
        rw [hlendef]
        split_ifs with h
        · omega
        · exact le_refl _
      have hloop := extractLoop_correct s prefixesList hprint len 1 (by omega) (by omega)
      simp only [Nat.sub_self, List.take_zero] at hloop
      simp only [show (1 : Nat) - 1 = 0 from rfl, Nat.zero_add] at hloop
      rw [hloop]
      congr 1
      rw [hlendef]
      split_ifs with hcond htarget
      · omega
      · omega
      · omega
      · omega
    · intro hzero
      omega

theorem c1_witness :
    (Extractor.extractString (faithfulOracle [104, 105]) [] 70).1 = [104, 105] := by
  have h := (c1_extractString_faithful [104, 105] [] 70 (by decide) (by decide)).1
  rw [h]
  decide

/-! ### Host normalization (claim C8) -/

theorem toLowerByte_eq_colon (b : Nat) : Storage.toLowerByte b = 58 ↔ b = 58 := by
  simp only [Storage.toLowerByte]
  split_ifs with h
  · omega
  · exact Iff.rfl

theorem toLowerByte_eq_rbracket (b : Nat) : Storage.toLowerByte b = 93 ↔ b = 93 := by
  simp only [Storage.toLowerByte]
  split_ifs with h
  · omega
  · exact Iff.rfl

theorem toLowerByte_idem (b : Nat) :
    Storage.toLowerByte (Storage.toLowerByte b) = Storage.toLowerByte b := by
  simp only [Storage.toLowerByte]
  split_ifs <;> omega

theorem map_toLowerByte_idem (s : List Nat) :
    (s.map Storage.toLowerByte).map Storage.toLowerByte = s.map Storage.toLowerByte := by
  rw [List.map_map]
  exact List.map_congr_left (fun a _ => toLowerByte_idem a)

theorem lastIndexOfByte_map_toLower (s : List Nat) :
    Storage.lastIndexOfByte 58 (s.map Storage.toLowerByte)
      = Storage.lastIndexOfByte 58 s := by
  induction s with
  | nil => rfl
  | cons x xs ih =>
    simp only [List.map_cons, Storage.lastIndexOfByte, ih]
    cases h : Storage.lastIndexOfByte 58 xs with
    | some i => rfl
    | none =>
      by_cases hx : x = 58
      · rw [if_pos ((toLowerByte_eq_colon x).mpr hx), if_pos hx]
      · rw [if_neg (fun hc => hx ((toLowerByte_eq_colon x).mp hc)), if_neg hx]

theorem contains_rbracket_map_toLower (s : List Nat) :
    (s.map Storage.toLowerByte).contains 93 = s.contains 93 := by
  induction s with
  | nil => rfl
  | cons x xs ih =>
    simp only [List.map_cons, List.contains_cons, ih]
    by_cases hx : x = 93
    · rw [hx]
      have h93 : Storage.toLowerByte 93 = 93 := (toLowerByte_eq_rbracket 93).mpr rfl
      rw [h93]
    · have hne : ¬ Storage.toLowerByte x = 93 :=
        fun hc => hx ((toLowerByte_eq_rbracket x).mp hc)
      have h1 : (93 == Storage.toLowerByte x) = false :=
        beq_eq_false_iff_ne.mpr (fun hc => hne hc.symm)
      have h2 : (93 == x) = false :=
        beq_eq_false_iff_ne.mpr (fun hc => hx hc.symm)
      rw [h1, h2]

theorem lastIndexOfByte_none_iff (b : Nat) (s : List Nat) :
    Storage.lastIndexOfByte b s = none ↔ b ∉ s := by
  induction s with
  | nil => simp [Storage.lastIndexOfByte]
  | cons x xs ih =>
    simp only [Storage.lastIndexOfByte]
    cases h : Storage.lastIndexOfByte b xs with
    | some i =>
      have hmem : b ∈ xs := by
        by_contra hc
        rw [ih.mpr hc] at h
        exact Option.noConfusion h
      constructor
      · intro hc
        exact Option.noConfusion hc
      · intro hc
        exact absurd (List.mem_cons_of_mem x hmem) hc
    | none =>
      have hnot : b ∉ xs := ih.mp h
      by_cases hx : x = b
      · rw [if_pos hx]
        constructor
        · intro hc
          exact Option.noConfusion hc
        · intro hc
          exact absurd (List.mem_cons.mpr (Or.inl hx.symm)) hc
      · rw [if_neg hx]
        constructor
        · intro _ hc
          rcases List.mem_cons.mp hc with hc | hc
          · exact hx hc.symm
          · exact hnot hc
        · intro _
          rfl

theorem lastIndexOfByte_mem (b : Nat) :
    ∀ (s : List Nat) (i : Nat), Storage.lastIndexOfByte b s = some i → b ∈ s := by
  intro s i h
  by_contra hc
  rw [(lastIndexOfByte_none_iff b s).mpr hc] at h
  exact Option.noConfusion h

/-- When `b` occurs at most once, the bytes before its last occurrence do not
contain it. -/
theorem lastIndexOfByte_take (b : Nat) :
    ∀ (s : List Nat) (i : Nat), Storage.lastIndexOfByte b s = some i →
      s.count b ≤ 1 → b ∉ s.take i := by
  intro s
  induction s with
  | nil => intro i h _; exact absurd h (by simp [Storage.lastIndexOfByte])
  | cons x xs ih =>
    intro i h hcount
    simp only [Storage.lastIndexOfByte] at h
    cases hxs : Storage.lastIndexOfByte b xs with
    | some j =>
      rw [hxs] at h
      simp only [Option.some.injEq] at h
      have hmem : b ∈ xs := lastIndexOfByte_mem b xs j hxs
      have h1 : 1 ≤ xs.count b := List.one_le_count_iff.mpr hmem
      have h2 : (x :: xs).count b = xs.count b + if x == b then 1 else 0 :=
        List.count_cons b x xs
      have hxb : ¬ x = b := by
        intro he
        rw [if_pos (beq_iff_eq.mpr he)] at h2
        omega
      have hcxs : xs.count b ≤ 1 := by
        by_cases hxb2 : (x == b) = true <;> simp [hxb2] at h2 <;> omega
      rw [← h]
      intro hc
      rcases List.mem_cons.mp (by simpa [List.take] using hc) with hc2 | hc2
      · exact hxb hc2.symm
      · exact ih j hxs hcxs (by simpa using hc2)
    | none =>
      rw [hxs] at h
      by_cases hx : x = b
      · rw [if_pos hx] at h
        simp only [Option.some.injEq] at h
        rw [← h]
        simp
      · rw [if_neg hx] at h
        exact Option.noConfusion h

/-- Claim C8, counterexample: `normalizeHost` is not idempotent.  On
`"a:b:c"` it strips the last colon segment giving `"a:b"`, and normalizing
again strips further to `"a"`. -/
theorem c8_counterexample :
    Storage.normalizeHost (Storage.normalizeHost (strBytes "a:b:c"))
      ≠ Storage.normalizeHost (strBytes "a:b:c") := by
  decide

/-- Idempotence on hosts with at most one colon: after stripping, no colon
is left to strip. -/
theorem normalizeHost_idem_count_le_one (s : List Nat)
    (h : s.count 58 ≤ 1) :
    Storage.normalizeHost (Storage.normalizeHost s) = Storage.normalizeHost s := by
  simp only [Storage.normalizeHost]
  cases hli : Storage.lastIndexOfByte 58 s with
  | none =>
    dsimp only
    rw [lastIndexOfByte_map_toLower, hli]
    exact map_toLowerByte_idem s
  | some idx =>
    dsimp only
    by_cases hbr : (s.drop idx).contains 93
    · rw [if_pos hbr]
      rw [lastIndexOfByte_map_toLower, hli]
      dsimp only
      rw [if_pos (by rw [← List.map_drop, contains_rbracket_map_toLower]; exact hbr)]
      exact map_toLowerByte_idem s
    · rw [if_neg hbr]
      have hnot : 58 ∉ s.take idx := lastIndexOfByte_take 58 s idx hli h
      have hnotm : 58 ∉ (s.take idx).map Storage.toLowerByte := by
        intro hc
        obtain ⟨a, ha, he⟩ := List.mem_map.mp hc
        exact hnot ((toLowerByte_eq_colon a).mp he ▸ ha)
      rw [(lastIndexOfByte_none_iff 58 _).mpr hnotm]
      exact map_toLowerByte_idem (s.take idx)

/-- A `some` result of `lastIndexOfByte` is a valid index. -/
theorem lastIndexOfByte_some_lt (b : Nat) :
    ∀ (s : List Nat) (j : Nat), Storage.lastIndexOfByte b s = some j → j < s.length := by
  intro s
  induction s with
  | nil => intro j h; exact absurd h (by simp [Storage.lastIndexOfByte])
  | cons x xs ih =>
    intro j h
    simp only [Storage.lastIndexOfByte] at h
    cases hxs : Storage.lastIndexOfByte b xs with
    | some i =>
      rw [hxs] at h
      simp only [Option.some.injEq] at h
      have hi := ih i hxs
      simp only [List.length_cons]
      omega
    | none =>
      rw [hxs] at h
      by_cases hx : x = b
      · rw [if_pos hx] at h
        simp only [Option.some.injEq] at h
        simp only [List.length_cons]
        omega
      · rw [if_neg hx] at h
        exact Option.noConfusion h

/-- If `b` does not occur in `p`, the last occurrence of `b` in
`q ++ b :: p` is the one between them. -/
theorem lastIndexOfByte_append_cons (b : Nat) (q p : List Nat) (hp : b ∉ p) :
    Storage.lastIndexOfByte b (q ++ b :: p) = some q.length := by
  induction q with
  | nil =>
    simp only [List.nil_append, Storage.lastIndexOfByte]
    rw [(lastIndexOfByte_none_iff b p).mpr hp]
    simp
  | cons x q2 ih =>
    simp only [List.cons_append, List.append_eq, Storage.lastIndexOfByte]
    rw [ih]
    rfl

/-- A host ending in `]` is never stripped: every colon suffix contains the
final bracket, so `normalizeHost` only lowercases. -/
theorem endsRBracket_no_strip (q : List Nat) :
    Storage.normalizeHost (q ++ [93]) = (q ++ [93]).map Storage.toLowerByte := by
  simp only [Storage.normalizeHost]
  cases hli : Storage.lastIndexOfByte 58 (q ++ [93]) with
  | none => rfl
  | some j =>
    dsimp only
    have hj : j < (q ++ [93]).length := lastIndexOfByte_some_lt 58 _ j hli
    have hj2 : j ≤ q.length := by
      simp only [List.length_append, List.length_cons, List.length_nil] at hj
      omega
    have hdrop : (q ++ [93]).drop j = q.drop j ++ [93] :=
      List.drop_append_of_le_length hj2
    have hcon : ((q ++ [93]).drop j).contains 93 = true := by
      rw [hdrop]
      have hm : (93 : Nat) ∈ q.drop j ++ [93] :=
        List.mem_append.mpr (Or.inr (by simp))
      exact List.elem_iff.mpr hm
    rw [if_pos hcon]

/-- `normalizeHost` fixes the lowercasing of a host ending in `]`. -/
theorem normalizeHost_fix_endsRBracket (q : List Nat) :
    Storage.normalizeHost ((q ++ [93]).map Storage.toLowerByte)
      = (q ++ [93]).map Storage.toLowerByte := by
  have h93 : Storage.toLowerByte 93 = 93 := (toLowerByte_eq_rbracket 93).mpr rfl
  have hmap : (q ++ [93]).map Storage.toLowerByte
      = q.map Storage.toLowerByte ++ [93] := by
    rw [List.map_append]
    simp [h93]
  rw [hmap, endsRBracket_no_strip (q.map Storage.toLowerByte), List.map_append]
  simp [h93, toLowerByte_idem]

/-- Claim C8, amended: `normalizeHost` is idempotent on every host containing
at most one colon (in particular every `name[:port]` host), on every host
ending in `]` (a bare bracketed IPv6 host), and on every bracketed IPv6 host
with a port `[...]:port` whose port part contains no colon and no bracket;
but it is not idempotent in general: on a host with two or more colons
outside brackets a second application strips a further `:`-suffix. -/
theorem c8_normalizeHost_idem_amended :
    (∀ s : List Nat, s.count 58 ≤ 1 →
        Storage.normalizeHost (Storage.normalizeHost s) = Storage.normalizeHost s)
    ∧ (∀ a : List Nat,
        Storage.normalizeHost (Storage.normalizeHost ((91 :: a) ++ [93]))
          = Storage.normalizeHost ((91 :: a) ++ [93]))
    ∧ (∀ a p : List Nat, 58 ∉ p → 93 ∉ p →
        Storage.normalizeHost (Storage.normalizeHost ((91 :: a) ++ [93] ++ 58 :: p))
          = Storage.normalizeHost ((91 :: a) ++ [93] ++ 58 :: p)) := by
  refine ⟨normalizeHost_idem_count_le_one, ?_, ?_⟩
  · intro a
    rw [endsRBracket_no_strip (91 :: a)]
    exact normalizeHost_fix_endsRBracket (91 :: a)
  · intro a p hp58 hp93
    have hB : Storage.normalizeHost (((91 :: a) ++ [93]) ++ 58 :: p)
        = ((91 :: a) ++ [93]).map Storage.toLowerByte := by
      simp only [Storage.normalizeHost]
      rw [lastIndexOfByte_append_cons 58 ((91 :: a) ++ [93]) p hp58]
      dsimp only
      rw [List.drop_left]
      have hnm : (93 : Nat) ∉ 58 :: p := by
        intro hc
        rcases List.mem_cons.mp hc with hc | hc
        · omega
        · exact hp93 hc
      have hcon : ((58 :: p).contains 93) = false := by
        cases hcc : (58 :: p).contains 93
        · rfl
        · exact absurd (List.elem_iff.mp hcc) hnm
      rw [if_neg (by rw [hcon]; exact Bool.false_ne_true), List.take_left]
    rw [hB]
    exact normalizeHost_fix_endsRBracket (91 :: a)

theorem c8_witness :
    (Storage.normalizeHost (Storage.normalizeHost (strBytes "EXAMPLE.com:8080"))
      = Storage.normalizeHost (strBytes "EXAMPLE.com:8080"))
    ∧ (Storage.normalizeHost
        (Storage.normalizeHost ((91 :: strBytes "::1") ++ [93] ++ 58 :: strBytes "8080"))
      = Storage.normalizeHost ((91 :: strBytes "::1") ++ [93] ++ 58 :: strBytes "8080")) :=
  ⟨c8_normalizeHost_idem_amended.1 (strBytes "EXAMPLE.com:8080") (by decide),
   c8_normalizeHost_idem_amended.2.2 (strBytes "::1") (strBytes "8080")
     (by decide) (by decide)⟩

/-! ### Legacy cache migration (claim C6) -/

/-- Claim C6: the code contradicts it.  `json.Unmarshal` into the new `Cache`
shape succeeds on a well-formed legacy file — the unknown `finder` key is
simply ignored — so `loadUnifiedCache` returns a record with NO tables and
the migration branch is dead code: the legacy table names and columns are
dropped, not preserved.  Had the legacy branch run, it would have produced
the flat record with the `users` table and its two columns. -/
theorem c6_legacy_tables_dropped :
    Storage.loadUnifiedCache Storage.legacyExample
      = ⟨[⟨"example.com", "", "", [], []⟩]⟩
    ∧ (Storage.decodeLegacyCache Storage.legacyExample).map Storage.migrate
      = some ⟨[⟨"example.com", "", "",
          [("users", ⟨["id", "password"], []⟩)], []⟩]⟩ := by
  exact ⟨rfl, rfl⟩

/-! ### Known-strings invariants (claim C10) -/

/-- One `SaveKnownString` step preserves "no duplicates, no empty entry". -/
theorem saveKnownString_preserves (l : List String) (s : String)
    (hnd : l.Nodup) (hne : "" ∉ l) :
    (Storage.saveKnownString l s).Nodup ∧ "" ∉ Storage.saveKnownString l s := by
  simp only [Storage.saveKnownString]
  split_ifs with h1 h2
  · exact ⟨hnd, hne⟩
  · exact ⟨hnd, hne⟩
  · constructor
    · simp only [List.nodup_append, List.nodup_cons, List.nodup_nil]
      refine ⟨hnd, by simp, ?_⟩
      intro a ha
      simp only [List.mem_singleton]
      intro he
      exact h2 (he ▸ ha)
    · intro hc
      rcases List.mem_append.mp hc with hc | hc
      · exact hne hc
      · simp only [List.mem_singleton] at hc
        exact h1 hc.symm

/-- Claim C10: `SaveKnownString` ignores the empty string and already-present
strings, so starting from the empty cache any sequence of saves yields a
known-strings list that is duplicate-free and contains no empty entry. -/
theorem c10_saveKnownString_invariants :
    (∀ l : List String, Storage.saveKnownString l "" = l)
    ∧ (∀ (l : List String) (s : String), s ∈ l → Storage.saveKnownString l s = l)
    ∧ (∀ ops : List String,
        (ops.foldl Storage.saveKnownString []).Nodup
        ∧ "" ∉ ops.foldl Storage.saveKnownString []) := by
  refine ⟨?_, ?_, ?_⟩
  · intro l
    simp [Storage.saveKnownString]
  · intro l s hs
    simp only [Storage.saveKnownString]
    split_ifs with h1 h2
    all_goals first | rfl | exact absurd hs h2
  · intro ops
    suffices hgen : ∀ (ops2 : List String) (l : List String),
        l.Nodup → "" ∉ l →
        (ops2.foldl Storage.saveKnownString l).Nodup
        ∧ "" ∉ ops2.foldl Storage.saveKnownString l by
      exact hgen ops [] (by simp) (by simp)
    intro ops2
    induction ops2 with
    | nil => intro l hnd hne; exact ⟨hnd, hne⟩
    | cons s rest ih =>
      intro l hnd hne
      obtain ⟨hnd2, hne2⟩ := saveKnownString_preserves l s hnd hne
      exact ih (Storage.saveKnownString l s) hnd2 hne2

theorem c10_witness :
    Storage.saveKnownString ["8.0.36"] "8.0.36" = ["8.0.36"] :=
  c10_saveKnownString_invariants.2.1 ["8.0.36"] "8.0.36" (by simp)

/-! ### Marker substitution (claim C5) -/

/-- Claim C5: the code contradicts it (and its own comment "Replace only the
first occurrence").  A template whose body contains the marker twice parses
with a nonnegative marker position — `ParseRequest` never enforces
uniqueness — and `ReplaceMarker` (via `regexp.ReplaceAllStringFunc`)
substitutes the payload into BOTH occurrences, not only the first. -/
theorem c5_replaceMarker_replaces_all :
    0 ≤ (Parser.parseMarker
      (Parser.bytes "POST /a HTTP/1.1\nHost: h\n\nx=<PAYLOAD>&y=<PAYLOAD>")).markerPosition
    ∧ Parser.countOccs (Parser.bytes "<PAYLOAD>")
        (Parser.parseMarker
          (Parser.bytes "POST /a HTTP/1.1\nHost: h\n\nx=<PAYLOAD>&y=<PAYLOAD>")).rawRequest = 2
    ∧ Parser.replaceMarker
        (Parser.parseMarker
          (Parser.bytes "POST /a HTTP/1.1\nHost: h\n\nx=<PAYLOAD>&y=<PAYLOAD>"))
        (Parser.bytes "1=1")
        = Parser.bytes "POST /a HTTP/1.1\nHost: h\n\nx=1=1&y=1=1"
    ∧ Parser.replaceMarker
        (Parser.parseMarker
          (Parser.bytes "POST /a HTTP/1.1\nHost: h\n\nx=<PAYLOAD>&y=<PAYLOAD>"))
        (Parser.bytes "1=1")
        ≠ Parser.bytes "POST /a HTTP/1.1\nHost: h\n\nx=1=1&y=<PAYLOAD>" := by
  refine ⟨by decide, by decide, by decide, by decide⟩

/-! ### Prefix-guided candidate sets (claim C4) -/

/-! ### Prefix-guided candidate sets (claim C4) -/

/-- Claim C4, counterexample: extracting the one-character value `"5"` in the
finder path with no persisted known strings.  The claim's candidate set (the
union of the built-in MySQL version prefixes and the persisted strings of
length 1, prefix-filtered) is nonempty at position 1, so the claim requires
equality probes there; but the finder consults only the persisted known
strings, so the extraction issues no equality probe at all (and still
returns the correct value by binary search). -/
theorem c4_counterexample :
    specCandidateSet mysqlVersionPrefixes [] 1 1 [] ≠ []
    ∧ ((Finder.extractString (faithfulOracle (strBytes "5")) [] 0).2.all
        (fun q => ! q.isEqProbe)) = true
    ∧ (Finder.extractString (faithfulOracle (strBytes "5")) [] 0).1
        = strBytes "5" := by
  refine ⟨?_, by decide, by decide⟩
  decide

/-- Every probe the finder's `findLength` sends is a length probe. -/
theorem finder_findLength_trace (oracle : Probe → Bool) :
    ∀ q ∈ (Finder.findLength oracle).2, ∃ n, q = Probe.lengthGt n := by
  intro q hq
  simp only [Finder.findLength] at hq
  by_cases h0 : oracle (Probe.lengthGt 0)
  · rw [if_pos h0] at hq
    simp only [List.mem_cons] at hq
    rcases hq with hq | hq
    · exact ⟨0, hq⟩
    · exact bsearchGo_trace oracle Probe.lengthGt 256 0 256 q hq
  · rw [if_neg h0] at hq
    simp at hq
    exact ⟨0, hq⟩

/-- With an empty candidate list the finder's character loop only ever sends
binary-search (`charGt`) probes. -/
theorem finder_extractLoop_nil_trace (oracle : Probe → Bool) :
    ∀ rem i acc, ∀ q ∈ (Finder.extractLoop oracle rem i [] acc).2,
      ∃ p n, q = Probe.charGt p n := by
  intro rem
  induction rem with
  | zero => intro i acc q hq; simp [Finder.extractLoop] at hq
  | succ n ih =>
    intro i acc q hq
    simp only [Finder.extractLoop, List.isEmpty_nil, if_true] at hq
    simp only [List.mem_append] at hq
    rcases hq with hq | hq
    · obtain ⟨m, hm⟩ := bsearchGo_trace oracle (Probe.charGt i) 94 32 126 q hq
      exact ⟨i, m, hm⟩
    · exact ih (i + 1) _ q hq

/-- Claim C4, amended.  The two extraction paths use disjoint candidate
sources, not their union: (a) in the extractor path (version / custom-query
extraction), the equality probes at a position are an initial segment of the
distinct position-characters of the built-in version prefixes of length at
least `pos` whose first `pos-1` characters match the already-extracted
text — and every remaining probe of that position is a binary-search `charGt`
probe, so all equality probes precede the fallback; (b) in the finder path
the candidates come only from the persisted known strings: with none
persisted, no equality probe is ever sent, whatever built-in prefixes
exist. -/
theorem c4_candidate_sets_per_path :
    (∀ (oracle : Probe → Bool) (prefixesList : List (List Nat)) (pos : Nat)
        (current : List Nat), ∃ j bs,
      j ≤ (Extractor.getUniqueCharsAtPosition
            (Extractor.candidateFilter prefixesList pos current) pos).length ∧
      (Extractor.findCharWithPrefixes oracle prefixesList pos current).2
        = ((Extractor.getUniqueCharsAtPosition
              (Extractor.candidateFilter prefixesList pos current) pos).take j).map
            (Probe.charEq pos) ++ bs
      ∧ ∀ q ∈ bs, ∃ n, q = Probe.charGt pos n)
    ∧ (∀ (oracle : Probe → Bool) (maxLen : Int),
        ∀ q ∈ (Finder.extractString oracle [] maxLen).2, q.isEqProbe = false) := by
  constructor
  · intro oracle prefixesList pos current
    simp only [Extractor.findCharWithPrefixes]
    by_cases hempty :
        (Extractor.candidateFilter prefixesList pos current).isEmpty
    · rw [if_pos hempty]
      refine ⟨0, (Extractor.findChar oracle pos).2, Nat.zero_le _, by simp, ?_⟩
      intro q hq
      exact bsearchGo_trace oracle (Probe.charGt pos) 94 32 126 q hq
    · rw [if_neg hempty]
      obtain ⟨j, hj, htr⟩ := tryEqualityChars_trace oracle pos
        (Extractor.getUniqueCharsAtPosition
          (Extractor.candidateFilter prefixesList pos current) pos)
      rcases hres : (Extractor.tryEqualityChars oracle pos
          (Extractor.getUniqueCharsAtPosition
            (Extractor.candidateFilter prefixesList pos current) pos)).1 with _ | c
      · simp only [hres]
        refine ⟨j, (Extractor.findChar oracle pos).2, hj, by rw [htr], ?_⟩
        intro q hq
        exact bsearchGo_trace oracle (Probe.charGt pos) 94 32 126 q hq
      · simp only [hres]
        exact ⟨j, [], hj, by rw [htr]; simp, by simp⟩
  · intro oracle maxLen q hq
    simp only [Finder.extractString] at hq
    by_cases h0 : (Finder.findLength oracle).1 = 0
    · rw [if_pos h0] at hq
      obtain ⟨n, hn⟩ := finder_findLength_trace oracle q hq
      rw [hn]
      rfl
    · rw [if_neg h0] at hq
      simp only [List.filter_nil, List.mem_append] at hq
      rcases hq with hq | hq
      · obtain ⟨n, hn⟩ := finder_findLength_trace oracle q hq
        rw [hn]
        rfl
      · obtain ⟨p, n, hn⟩ := finder_extractLoop_nil_trace oracle _ 1 [] q hq
        rw [hn]
        rfl

theorem c4_witness :
    (Probe.lengthGt 0).isEqProbe = false :=
  c4_candidate_sets_per_path.2 (faithfulOracle []) 0 (Probe.lengthGt 0) (by decide)

/-! ### Row-count ladder (claim C7) -/

/-- Evaluation of the descending threshold ladder under a faithful count
oracle. -/
theorem thresholdLadder_eval (c : Nat) :
    Finder.thresholdLadder (fun n => decide (c > n))
        [1000000, 100000, 10000, 1000, 100, 10]
      = (if 1000000 ≤ c then some (-1) else if 100000 ≤ c then some 100000
         else if 10000 ≤ c then some 10000 else if 1000 ≤ c then some 1000
         else if 100 ≤ c then some 100 else if 10 ≤ c then some 10 else none) := by
  simp only [Finder.thresholdLadder]
  by_cases h1 : 1000000 ≤ c
  · rw [if_pos (by simp; omega), if_pos h1]
    simp
  · rw [if_neg (by simp; omega), if_neg h1]
    by_cases h2 : 100000 ≤ c
    · rw [if_pos (by simp; omega), if_pos h2]
      simp
    · rw [if_neg (by simp; omega), if_neg h2]
      by_cases h3 : 10000 ≤ c
      · rw [if_pos (by simp; omega), if_pos h3]
        simp
      · rw [if_neg (by simp; omega), if_neg h3]
        by_cases h4 : 1000 ≤ c
        · rw [if_pos (by simp; omega), if_pos h4]
          simp
        · rw [if_neg (by simp; omega), if_neg h4]
          by_cases h5 : 100 ≤ c
          · rw [if_pos (by simp; omega), if_pos h5]
            simp
          · rw [if_neg (by simp; omega), if_neg h5]
            by_cases h6 : 10 ≤ c
            · rw [if_pos (by simp; omega), if_pos h6]
              simp
            · rw [if_neg (by simp; omega), if_neg h6]

/-- Full evaluation of `GetRowCount` under a faithful count oracle for a
table of `c` rows. -/
theorem getRowCount_eval (c : Nat) :
    Finder.getRowCount (fun n => decide (c > n))
      = (if c = 0 then 0 else if 1000000 ≤ c then -1
         else if 100000 ≤ c then 100000 else if 10000 ≤ c then 10000
         else if 1000 ≤ c then 1000 else if 100 ≤ c then 100
         else if 10 ≤ c then 10 else (c : Int)) := by
  simp only [Finder.getRowCount, thresholdLadder_eval]
  by_cases h0 : c = 0
  · rw [if_pos (by simp; omega), if_pos h0]
  · rw [if_neg (by simp; omega), if_neg h0]
    by_cases h1 : 1000000 ≤ c
    · rw [if_pos h1, if_pos h1]
    · rw [if_neg h1, if_neg h1]
      by_cases h2 : 100000 ≤ c
      · rw [if_pos h2, if_pos h2]
      · rw [if_neg h2, if_neg h2]
        by_cases h3 : 10000 ≤ c
        · rw [if_pos h3, if_pos h3]
        · rw [if_neg h3, if_neg h3]
          by_cases h4 : 1000 ≤ c
          · rw [if_pos h4, if_pos h4]
          · rw [if_neg h4, if_neg h4]
            by_cases h5 : 100 ≤ c
            · rw [if_pos h5, if_pos h5]
            · rw [if_neg h5, if_neg h5]
              by_cases h6 : 10 ≤ c
              · rw [if_pos h6, if_pos h6]
              · rw [if_neg h6, if_neg h6]
                show ((bsearchGo (fun n => decide (c > n)) (fun n => n) 8 1 9).1 : Int)
                  = (c : Int)
                rw [bsearchGo_correct (fun n => decide (c > n)) (fun n => n) c
                  (fun k => rfl) 8 1 9 (by omega) (by omega) (by omega)]

/-- Claim C7: under a faithful monotone oracle, `GetRowCount` returns `-1`
iff the first ladder probe `COUNT(*) > 999999` answers TRUE (iff the count
exceeds 999999); with a zero count it returns 0; with every ladder probe
FALSE (count below 10) and a positive count it binary-searches `[1, 9]` and
returns the exact count; otherwise it returns the largest threshold whose
probe answered TRUE. -/
theorem c7_getRowCount_faithful (c : Nat) :
    (Finder.getRowCount (fun n => decide (c > n)) = -1 ↔ 999999 < c)
    ∧ (c = 0 → Finder.getRowCount (fun n => decide (c > n)) = 0)
    ∧ (1 ≤ c → c ≤ 9 → Finder.getRowCount (fun n => decide (c > n)) = c)
    ∧ (10 ≤ c → c ≤ 999999 →
        Finder.getRowCount (fun n => decide (c > n)) =
          (if 100000 ≤ c then 100000 else if 10000 ≤ c then 10000
           else if 1000 ≤ c then 1000 else if 100 ≤ c then 100 else 10)) := by
  have hval := getRowCount_eval c
  refine ⟨?_, ?_, ?_, ?_⟩
  · rw [hval]
    split_ifs <;> first | omega | (simp; omega)
  · intro h0
    rw [hval]
    split_ifs <;> first | omega | (simp; omega)
  · intro hl hh
    rw [hval]
    split_ifs <;> first | omega | (simp; omega)
  · intro hl hh
    rw [hval]
    split_ifs <;> first | omega | (simp; omega)

theorem c7_witness :
    Finder.getRowCount (fun n => decide ((5 : Nat) > n)) = ((5 : Nat) : Int) :=
  (c7_getRowCount_faithful 5).2.2.1 (by decide) (by decide)

/-! ### Theorems about fingerprint comparison (claims C2, C3, C9) -/

/-- Claim C2, counterexample: two fingerprints whose matches-signal-string
flags agree (both `true`, as when a signal string was supplied and found in
both responses) but whose status codes differ are NOT equal, refuting
"for every pair of fingerprints whose flags agree, Equals returns true
regardless of any disagreement in status code". -/
theorem c2_counterexample :
    let a : Fingerprint :=
      { statusCode := 200, contentLength := 100, wordCount := 10,
        lineCount := 1, bodyHash := "h", containsMatchString := true }
    let b : Fingerprint :=
      { statusCode := 500, contentLength := 100, wordCount := 10,
        lineCount := 1, bodyHash := "h", containsMatchString := true }
    a.containsMatchString = b.containsMatchString ∧
      Fingerprint.equals (some a) (some b) = false := by
  decide

/-- Claim C2, amended: disagreement of the matches-signal-string flags alone
forces inequality (`Equals` returns false whenever the flags disagree);
agreement of the flags does not by itself decide equality — the status-code
and word-count / content-length checks still apply. -/
theorem c2_flag_disagreement_forces_inequality (f other : Fingerprint)
    (h : f.containsMatchString ≠ other.containsMatchString) :
    Fingerprint.equals (some f) (some other) = false := by
  simp only [Fingerprint.equals]
  rw [if_pos h]

theorem c2_flag_disagreement_witness :
    Fingerprint.equals
      (some { statusCode := 200, contentLength := 100, wordCount := 10,
              lineCount := 1, bodyHash := "h", containsMatchString := true })
      (some { statusCode := 200, contentLength := 100, wordCount := 10,
              lineCount := 1, bodyHash := "h", containsMatchString := false })
      = false :=
  c2_flag_disagreement_forces_inequality _ _ (by decide)

/-- Claim C3, counterexample to symmetry: with equal status codes and flags
but different word counts, the 5% tolerance is computed from the left-hand
content length, so `a.Equals(b)` (tolerance 50 from length 1000, difference
49) holds while `b.Equals(a)` (tolerance 47.55 from length 951) fails. -/
theorem c3_counterexample :
    let a : Fingerprint :=
      { statusCode := 200, contentLength := 1000, wordCount := 10,
        lineCount := 1, bodyHash := "h", containsMatchString := false }
    let b : Fingerprint :=
      { statusCode := 200, contentLength := 951, wordCount := 20,
        lineCount := 1, bodyHash := "h", containsMatchString := false }
    Fingerprint.equals (some a) (some b) = true ∧
      Fingerprint.equals (some b) (some a) = false := by
  decide

/-- Claim C3, amended: `Equals` is reflexive (every non-nil fingerprint
equals itself), and it is symmetric whenever the two content lengths agree;
but because the 5% tolerance is computed from the left-hand content length it
is not symmetric in general. -/
theorem c3_reflexive_and_conditionally_symmetric :
    (∀ f : Fingerprint, Fingerprint.equals (some f) (some f) = true) ∧
      (∀ f other : Fingerprint, f.contentLength = other.contentLength →
        Fingerprint.equals (some f) (some other) =
          Fingerprint.equals (some other) (some f)) := by
  constructor
  · intro f
    simp [Fingerprint.equals]
  · intro f other hcl
    simp only [Fingerprint.equals]
    by_cases hm : f.containsMatchString = other.containsMatchString
    · by_cases hs : f.statusCode = other.statusCode
      · by_cases hw : f.wordCount = other.wordCount
        · rw [if_neg (fun hn => hn hm), if_neg (fun hn => hn hs), if_pos hw,
            if_neg (fun hn => hn hm.symm), if_neg (fun hn => hn hs.symm),
            if_pos hw.symm]
        · rw [if_neg (fun hn => hn hm), if_neg (fun hn => hn hs), if_neg hw,
            if_neg (fun hn => hn hm.symm), if_neg (fun hn => hn hs.symm),
            if_neg (fun h => hw h.symm)]
          simp only [Fingerprint.lengthWithinTolerance, hcl]
      · rw [if_neg (fun hn => hn hm), if_pos hs,
          if_neg (fun hn => hn hm.symm), if_pos (fun h => hs h.symm)]
    · rw [if_pos hm, if_pos (fun h => hm h.symm)]

theorem c3_witness :
    Fingerprint.equals
      (some { statusCode := 200, contentLength := 77, wordCount := 5,
              lineCount := 2, bodyHash := "x", containsMatchString := false })
      (some { statusCode := 200, contentLength := 77, wordCount := 5,
              lineCount := 2, bodyHash := "x", containsMatchString := false }) = true :=
  c3_reflexive_and_conditionally_symmetric.1 _

/-- Claim C9: fingerprint comparison is total on missing values.  `Equals`,
`IsSimilar` against a nil fingerprint (either side) return false, `Diff`
returns "nil fingerprint", and consequently every oracle classification
(`IsTrue` / `IsFalse` / `IsError`) of an absent response fingerprint is
defined and answers false. -/
theorem c9_nil_fingerprints_total (f : Option Fingerprint) (r : CalibrationResult) :
    Fingerprint.equals f none = false ∧
    Fingerprint.equals none f = false ∧
    Fingerprint.isSimilar f none = false ∧
    Fingerprint.isSimilar none f = false ∧
    Fingerprint.diff f none = "nil fingerprint" ∧
    Fingerprint.diff none f = "nil fingerprint" ∧
    r.isTrue none = false ∧
    r.isFalse none = false ∧
    r.isError none = false := by
  refine ⟨?_, ?_, ?_, ?_, ?_, ?_, ?_, ?_, ?_⟩
  · cases f <;> rfl
  · rfl
  · cases f <;> rfl
  · rfl
  · cases f <;> rfl
  · rfl
  · show Fingerprint.equals r.trueFingerprint none = false
    cases r.trueFingerprint <;> rfl
  · show Fingerprint.equals r.falseFingerprint none = false
    cases r.falseFingerprint <;> rfl
  · show Fingerprint.equals r.errorFingerprint none = false
    cases r.errorFingerprint <;> rfl

end FlatSQLi
